import Mathlib

/-!
Verification of the scheduler ("Platform") of PHP-JS against its
specification.

The repository ships only the interface `src/platform.h`: the class
`JS::Platform` declares a pending task queue (`std::deque<v8::Task*> _tasks`),
a running flag (`std::atomic<bool> _running`), a mutex, a condition variable,
a worker thread, the private operations `stop`/`run`, the singleton lifecycle
`create`/`shutdown`, the submission operations `CallOnBackgroundThread`,
`CallOnForegroundThread`, `CallDelayedOnForegroundThread`, and the clock
`MonotonicallyIncreasingTime`.  The method bodies are not part of the
sources, so every operation below is modelled from the specification's
description of its behaviour, and settled against that model.

Tasks are opaque executable units; we represent them by natural-number
identifiers.  The observable behaviour of a run of the system is the ordered
trace of execution and destruction events it emits.
-/

namespace PhpJs

/-- The advisory expected-runtime hint of the v8 `CallOnBackgroundThread`
API (`ExpectedRuntime time` in `src/platform.h`). -/
inductive ExpectedRuntime
  | kShortRunningTask
  | kLongRunningTask
deriving DecidableEq, Repr

/-- Modelled from the spec: the state of one live Scheduler instance — the
Pending Queue (an ordered sequence of owned task handles, FIFO, the head is
served first; `Platform::_tasks`) and the running flag
(`Platform::_running`). -/
structure Sched where
  pending : List Nat
  running : Bool
deriving DecidableEq, Repr

/-- Modelled from the spec: a freshly constructed scheduler instance — empty
queue, running flag set to true, worker thread started
(`Platform::Platform`). -/
def freshSched : Sched :=
  { pending := [], running := true }

/-- Modelled from the spec: `Platform::CallOnBackgroundThread` appends the
task to the tail of the Pending Queue under the queue lock and signals the
condition; the runtime hint is advisory only and does not influence the
queue. -/
def callOnBackgroundThread (p : Sched) (task : Nat) (time : ExpectedRuntime) : Sched :=
  { p with pending := p.pending ++ [task] }

/-- An observable event of a run: a task is executed, or a task is
destroyed (freed). -/
inductive Ev
  | execT (t : Nat)
  | destroyT (t : Nat)
deriving DecidableEq, Repr

/-- Modelled from the spec: `Platform::stop` sets running to false, wakes the
worker and joins it; the worker, observing the stop signal, destroys every
task still in the queue without executing it (drain-without-run) and exits.
The result is the scheduler state at the moment the worker thread has
exited, together with the events emitted while draining. -/
def stop (p : Sched) : Sched × List Ev :=
  ({ pending := [], running := false }, p.pending.map Ev.destroyT)

/-- Modelled from the spec: `Platform::create` — if no instance exists,
construct one and start its worker; if an instance already exists the call
has no effect.  Calls are serialised by the static mutex, so the model takes
and returns the singleton slot. -/
def createP : Option Sched → Option Sched
  | none => some freshSched
  | some p => some p

/-- Modelled from the spec: `Platform::shutdown` — if no instance exists,
no-op; otherwise stop the instance (blocking until the worker thread has
exited) and tear it down.  Returns the singleton slot after the call and the
events emitted. -/
def shutdownP : Option Sched → Option Sched × List Ev
  | none => (none, [])
  | some p => (none, (stop p).2)

/-- The error signalled for an invalid submission. -/
inductive SubmitError
  | nullTask
  | noInstance
deriving DecidableEq, Repr

/-- Modelled from the spec: a background submission through the facade.  A
null task or a submission when no instance is alive (after shutdown, or
before create) is a precondition violation and is rejected; a valid
submission appends the task to the queue. -/
def submitBackground (inst : Option Sched) (task : Option Nat)
    (rt : ExpectedRuntime) : Except SubmitError (Option Sched) :=
  match task with
  | none => .error .nullTask
  | some t =>
    match inst with
    | none => .error .noInstance
    | some p => .ok (some (callOnBackgroundThread p t rt))

/-- The whole system: the singleton slot and the trace of events emitted so
far. -/
structure SysState where
  inst : Option Sched
  trace : List Ev
deriving DecidableEq, Repr

/-- The initial system state: no instance, empty trace. -/
def initSys : SysState :=
  { inst := none, trace := [] }

/-- The pending queue of the singleton slot (empty when no instance is
alive). -/
def pendingOf : Option Sched → List Nat
  | none => []
  | some p => p.pending

/-- An action of the system: a lifecycle call, a submission, or one
iteration of the worker loop (dequeue the head task under the lock, execute
it, destroy it). -/
inductive Act
  | create
  | shutdown
  | submit (task : Option Nat) (rt : ExpectedRuntime)
  | runOne
deriving DecidableEq, Repr

/-- Modelled from the spec: one atomic step of the system.  Rejected
submissions leave the state unchanged; `runOne` is the worker removing the
head task from the queue under the lock, executing it, and destroying it. -/
def sysStep (s : SysState) : Act → SysState
  | .create => { s with inst := createP s.inst }
  | .shutdown =>
    { inst := (shutdownP s.inst).1, trace := s.trace ++ (shutdownP s.inst).2 }
  | .submit task rt =>
    match submitBackground s.inst task rt with
    | .ok i => { s with inst := i }
    | .error _ => s
  | .runOne =>
    match s.inst with
    | none => s
    | some p =>
      match p.pending with
      | [] => s
      | t :: rest =>
        { inst := some { p with pending := rest },
          trace := s.trace ++ [Ev.execT t, Ev.destroyT t] }

/-- Run a sequence of actions from a state. -/
def sysRun (s : SysState) (acts : List Act) : SysState :=
  acts.foldl sysStep s

/-- The tasks accepted (successfully enqueued) along a run, in enqueue
order. -/
def acceptedRun (s : SysState) : List Act → List Nat
  | [] => []
  | a :: acts =>
    (match a, s.inst with
     | Act.submit (some t) _, some _ => [t]
     | _, _ => []) ++ acceptedRun (sysStep s a) acts

/-- The identifiers of the tasks executed in a trace, in order. -/
def execedIds (tr : List Ev) : List Nat :=
  tr.filterMap fun e =>
    match e with
    | .execT t => some t
    | .destroyT _ => none

/-- The identifiers of the tasks destroyed in a trace, in order. -/
def destroyedIds (tr : List Ev) : List Nat :=
  tr.filterMap fun e =>
    match e with
    | .execT _ => none
    | .destroyT t => some t

/-- Does an event mention task `t`? -/
def evMentions (t : Nat) (e : Ev) : Bool :=
  match e with
  | .execT u => u = t
  | .destroyT u => u = t

lemma destroyedIds_append (t1 t2 : List Ev) :
    destroyedIds (t1 ++ t2) = destroyedIds t1 ++ destroyedIds t2 := by
  simp [destroyedIds]

lemma execedIds_append (t1 t2 : List Ev) :
    execedIds (t1 ++ t2) = execedIds t1 ++ execedIds t2 := by
  simp [execedIds]

lemma destroyedIds_map_destroy (l : List Nat) :
    destroyedIds (l.map Ev.destroyT) = l := by
  induction l with
  | nil => rfl
  | cons a l ih => simpa [destroyedIds] using ih

lemma execedIds_map_destroy (l : List Nat) :
    execedIds (l.map Ev.destroyT) = [] := by
  induction l with
  | nil => rfl
  | cons a l ih => simpa [execedIds] using ih

lemma sysRun_cons (s : SysState) (a : Act) (acts : List Act) :
    sysRun s (a :: acts) = sysRun (sysStep s a) acts := rfl

lemma acceptedRun_cons (s : SysState) (a : Act) (acts : List Act) :
    acceptedRun s (a :: acts)
      = (match a, s.inst with
         | Act.submit (some t) _, some _ => [t]
         | _, _ => []) ++ acceptedRun (sysStep s a) acts := rfl

/-- Conservation: along any run, the tasks destroyed so far followed by the
tasks still pending are exactly the initially recorded ones followed by the
tasks accepted along the run, in order. -/
lemma destroyed_pending_conserved (acts : List Act) :
    ∀ s : SysState,
      destroyedIds (sysRun s acts).trace ++ pendingOf (sysRun s acts).inst
        = destroyedIds s.trace ++ pendingOf s.inst ++ acceptedRun s acts := by
  induction acts with
  | nil => intro s; simp [sysRun, acceptedRun]
  | cons a acts ih =>
    intro s
    rw [sysRun_cons, ih (sysStep s a), acceptedRun_cons]
    cases a with
    | create =>
      cases h : s.inst <;>
        simp [sysStep, createP, pendingOf, freshSched, h]
    | shutdown =>
      cases h : s.inst with
      | none => simp [sysStep, shutdownP, pendingOf, h]
      | some p =>
        simp [sysStep, shutdownP, stop, pendingOf, h, destroyedIds_append,
          destroyedIds_map_destroy]
    | submit task rt =>
      cases task with
      | none => cases h : s.inst <;> simp [sysStep, submitBackground, pendingOf, h]
      | some t =>
        cases h : s.inst with
        | none => simp [sysStep, submitBackground, pendingOf, h]
        | some p =>
          simp [sysStep, submitBackground, callOnBackgroundThread, pendingOf, h]
    | runOne =>
      cases h : s.inst with
      | none => simp [sysStep, pendingOf, h]
      | some p =>
        cases hp : p.pending with
        | nil => simp [sysStep, pendingOf, h, hp]
        | cons t rest =>
          simp [sysStep, pendingOf, h, hp, destroyedIds_append, destroyedIds]

/-- Conservation of executions: along any run that never calls shutdown, the
tasks executed so far followed by the tasks still pending are exactly the
initially recorded ones followed by the tasks accepted along the run, in
order. -/
lemma execed_pending_conserved (acts : List Act) :
    ∀ s : SysState, Act.shutdown ∉ acts →
      execedIds (sysRun s acts).trace ++ pendingOf (sysRun s acts).inst
        = execedIds s.trace ++ pendingOf s.inst ++ acceptedRun s acts := by
  induction acts with
  | nil => intro s _; simp [sysRun, acceptedRun]
  | cons a acts ih =>
    intro s hns
    have hna : a ≠ Act.shutdown := by
      intro h
      exact hns (h ▸ List.mem_cons_self a acts)
    have hns' : Act.shutdown ∉ acts := fun h => hns (List.mem_cons_of_mem a h)
    rw [sysRun_cons, ih (sysStep s a) hns', acceptedRun_cons]
    cases a with
    | create =>
      cases h : s.inst <;>
        simp [sysStep, createP, pendingOf, freshSched, h]
    | shutdown => exact absurd rfl hna
    | submit task rt =>
      cases task with
      | none => cases h : s.inst <;> simp [sysStep, submitBackground, pendingOf, h]
      | some t =>
        cases h : s.inst with
        | none => simp [sysStep, submitBackground, pendingOf, h]
        | some p =>
          simp [sysStep, submitBackground, callOnBackgroundThread, pendingOf, h]
    | runOne =>
      cases h : s.inst with
      | none => simp [sysStep, pendingOf, h]
      | some p =>
        cases hp : p.pending with
        | nil => simp [sysStep, pendingOf, h, hp]
        | cons t rest =>
          simp [sysStep, pendingOf, h, hp, execedIds_append, execedIds]

/-- C1: for every sequence of actions in which shutdown does not intervene
and after which the queue has emptied, the single worker has executed
exactly the accepted tasks, each exactly once, in exactly the order they
were enqueued. -/
theorem c1_background_fifo (acts : List Act)
    (hns : Act.shutdown ∉ acts)
    (hfin : pendingOf (sysRun initSys acts).inst = []) :
    execedIds (sysRun initSys acts).trace = acceptedRun initSys acts := by
  have h := execed_pending_conserved acts initSys hns
  rw [hfin] at h
  simpa [initSys, pendingOf, execedIds] using h

/-- Concrete action sequence for the C1 witness: create, submit tasks 1 and
2, run the worker twice. -/
def c1acts : List Act :=
  [Act.create, Act.submit (some 1) ExpectedRuntime.kShortRunningTask,
   Act.submit (some 2) ExpectedRuntime.kLongRunningTask, Act.runOne, Act.runOne]

theorem c1_background_fifo_witness :
    Act.shutdown ∉ c1acts ∧ pendingOf (sysRun initSys c1acts).inst = [] ∧
      execedIds (sysRun initSys c1acts).trace = acceptedRun initSys c1acts :=
  ⟨by decide, by decide, c1_background_fifo c1acts (by decide) (by decide)⟩

lemma destroyedIds_nil : destroyedIds [] = [] := rfl

lemma execedIds_nil : execedIds [] = [] := rfl

lemma filter_mentions_map_destroy (t : Nat) (l : List Nat) :
    (l.map Ev.destroyT).filter (evMentions t)
      = List.replicate (l.count t) (Ev.destroyT t) := by
  induction l with
  | nil => rfl
  | cons a l ih =>
    by_cases h : a = t
    · subst h
      simp [evMentions, List.count_cons, ih, List.replicate_succ]
    · simp [evMentions, List.count_cons, h, ih]

/-- Once a task is neither pending nor among the tasks still to be accepted,
no further event can mention it: its part of the trace is frozen, and it
never re-enters the queue. -/
lemma trace_frozen (acts : List Act) :
    ∀ (s : SysState) (t : Nat),
      t ∉ pendingOf s.inst → t ∉ acceptedRun s acts →
      (sysRun s acts).trace.filter (evMentions t) = s.trace.filter (evMentions t)
        ∧ t ∉ pendingOf (sysRun s acts).inst := by
  induction acts with
  | nil => intro s t hp _; exact ⟨rfl, hp⟩
  | cons a acts ih =>
    intro s t hp ha
    rw [acceptedRun_cons] at ha
    simp only [List.mem_append, not_or] at ha
    obtain ⟨haf, har⟩ := ha
    rw [sysRun_cons]
    cases a with
    | create =>
      cases h : s.inst with
      | none =>
        refine ih _ t ?_ har
        simp [sysStep, createP, pendingOf, freshSched, h]
      | some p =>
        refine (ih _ t ?_ har).imp ?_ id
        · simpa [sysStep, createP, pendingOf, h] using hp
        · intro hf; rw [hf]; simp [sysStep, createP, h]
    | shutdown =>
      cases h : s.inst with
      | none =>
        refine (ih _ t ?_ har).imp ?_ id
        · simp [sysStep, shutdownP, pendingOf, h]
        · intro hf; rw [hf]; simp [sysStep, shutdownP, h]
      | some p =>
        have hcnt : p.pending.count t = 0 := by
          rw [List.count_eq_zero]
          simpa [pendingOf, h] using hp
        refine (ih _ t ?_ har).imp ?_ id
        · simp [sysStep, shutdownP, pendingOf, h]
        · intro hf
          rw [hf]
          simp [sysStep, shutdownP, stop, h, List.filter_append,
            filter_mentions_map_destroy, hcnt]
    | submit task rt =>
      cases task with
      | none =>
        refine (ih _ t ?_ har).imp ?_ id
        · simpa [sysStep, submitBackground] using hp
        · intro hf
          exact hf.trans (by simp [sysStep, submitBackground])
      | some u =>
        cases h : s.inst with
        | none =>
          refine (ih _ t ?_ har).imp ?_ id
          · simpa [sysStep, submitBackground, h] using hp
          · intro hf; rw [hf]; simp [sysStep, submitBackground, h]
        | some p =>
          have hut : t ≠ u := by
            intro he; exact haf (by simp [h, he])
          refine (ih _ t ?_ har).imp ?_ id
          · simp [sysStep, submitBackground, callOnBackgroundThread, pendingOf, h]
            exact ⟨by simpa [pendingOf, h] using hp, hut⟩
          · intro hf; rw [hf]; simp [sysStep, submitBackground, h]
    | runOne =>
      cases h : s.inst with
      | none =>
        refine (ih _ t ?_ har).imp ?_ id
        · simpa [sysStep, h] using hp
        · intro hf; rw [hf]; simp [sysStep, h]
      | some p =>
        cases hp' : p.pending with
        | nil =>
          refine (ih _ t ?_ har).imp ?_ id
          · simp [sysStep, pendingOf, h, hp']
          · intro hf; rw [hf]; simp [sysStep, h, hp']
        | cons u rest =>
          have hmem : t ∉ u :: rest := by simpa [pendingOf, h, hp'] using hp
          have hut : t ≠ u := fun he => hmem (he ▸ List.mem_cons_self u rest)
          have hrest : t ∉ rest := fun hm => hmem (List.mem_cons_of_mem u hm)
          refine (ih _ t ?_ har).imp ?_ id
          · simpa [sysStep, pendingOf, h, hp'] using hrest
          · intro hf
            rw [hf]
            simp [sysStep, h, hp', List.filter_append, evMentions, Ne.symm hut]

/-- Per-task lifecycle: starting from a state whose trace does not yet
mention task `t`, with `t` queued or still-to-be-accepted at most once in
total, the final trace restricted to `t` is empty, or one execution followed
by one destruction, or one destruction alone. -/
lemma task_lifecycle (acts : List Act) :
    ∀ (s : SysState) (t : Nat),
      s.trace.filter (evMentions t) = [] →
      (pendingOf s.inst).count t + (acceptedRun s acts).count t ≤ 1 →
      (sysRun s acts).trace.filter (evMentions t) = []
        ∨ (sysRun s acts).trace.filter (evMentions t) = [Ev.execT t, Ev.destroyT t]
        ∨ (sysRun s acts).trace.filter (evMentions t) = [Ev.destroyT t] := by
  induction acts with
  | nil => intro s t h1 _; exact Or.inl h1
  | cons a acts ih =>
    intro s t h1 h2
    rw [acceptedRun_cons, List.count_append] at h2
    rw [sysRun_cons]
    cases a with
    | create =>
      cases h : s.inst with
      | none =>
        refine ih _ t ?_ ?_
        · simpa [sysStep, createP, h] using h1
        · simpa [sysStep, createP, pendingOf, freshSched, h] using h2
      | some p =>
        refine ih _ t ?_ ?_
        · simpa [sysStep, createP, h] using h1
        · simpa [sysStep, createP, pendingOf, h] using h2
    | shutdown =>
      cases h : s.inst with
      | none =>
        refine ih _ t ?_ ?_
        · simpa [sysStep, shutdownP, h] using h1
        · simpa [sysStep, shutdownP, pendingOf, h] using h2
      | some p =>
        by_cases htp : t ∈ p.pending
        · have hc1 : 1 ≤ p.pending.count t := List.count_pos_iff.mpr htp
          have h2' : p.pending.count t
              + (acceptedRun (sysStep s Act.shutdown) acts).count t ≤ 1 := by
            simpa [pendingOf, h] using h2
          have hcp : p.pending.count t = 1 := by omega
          have hacc : (acceptedRun (sysStep s Act.shutdown) acts).count t = 0 := by
            omega
          have hfr := trace_frozen acts (sysStep s Act.shutdown) t
            (by simp [sysStep, shutdownP, pendingOf, h])
            (by rw [← List.count_eq_zero]; exact hacc)
          refine Or.inr (Or.inr ?_)
          rw [hfr.1]
          simp [sysStep, shutdownP, stop, h, List.filter_append, h1,
            filter_mentions_map_destroy, hcp]
        · have hcp : p.pending.count t = 0 := List.count_eq_zero.mpr htp
          refine ih _ t ?_ ?_
          · simp [sysStep, shutdownP, stop, h, List.filter_append, h1,
              filter_mentions_map_destroy, hcp]
          · simpa [sysStep, shutdownP, pendingOf, h, hcp] using h2
    | submit task rt =>
      cases task with
      | none =>
        refine ih _ t ?_ ?_
        · simpa [sysStep, submitBackground] using h1
        · simpa [sysStep, submitBackground, pendingOf] using h2
      | some u =>
        cases h : s.inst with
        | none =>
          refine ih _ t ?_ ?_
          · simpa [sysStep, submitBackground, h] using h1
          · simpa [sysStep, submitBackground, pendingOf, h] using h2
        | some p =>
          refine ih _ t ?_ ?_
          · simpa [sysStep, submitBackground, h] using h1
          · have hgoal :
                pendingOf (sysStep s (Act.submit (some u) rt)).inst
                  = p.pending ++ [u] := by
              simp [sysStep, submitBackground, callOnBackgroundThread, pendingOf, h]
            rw [hgoal, List.count_append]
            simp only [pendingOf, h] at h2
            omega
    | runOne =>
      cases h : s.inst with
      | none =>
        refine ih _ t ?_ ?_
        · simpa [sysStep, h] using h1
        · simpa [sysStep, pendingOf, h] using h2
      | some p =>
        cases hp' : p.pending with
        | nil =>
          refine ih _ t ?_ ?_
          · simpa [sysStep, h, hp'] using h1
          · simpa [sysStep, pendingOf, h, hp'] using h2
        | cons u rest =>
          by_cases hut : u = t
          · subst hut
            have hcr : rest.count u = 0 ∧
                (acceptedRun (sysStep s Act.runOne) acts).count u = 0 := by
              simp [pendingOf, h, hp', List.count_cons, sysStep] at h2 ⊢
              omega
            have hfr := trace_frozen acts (sysStep s Act.runOne) u
              (by rw [← List.count_eq_zero]; simpa [sysStep, pendingOf, h, hp'] using hcr.1)
              (by rw [← List.count_eq_zero]; exact hcr.2)
            refine Or.inr (Or.inl ?_)
            rw [hfr.1]
            simp [sysStep, h, hp', List.filter_append, h1, evMentions]
          · refine ih _ t ?_ ?_
            · simp [sysStep, h, hp', List.filter_append, h1, evMentions, hut]
            · have hgoal : pendingOf (sysStep s Act.runOne).inst = rest := by
                simp [sysStep, pendingOf, h, hp']
              rw [hgoal]
              simp [pendingOf, h, hp', List.count_cons, hut] at h2
              omega

lemma destroyedIds_cons_exec (u : Nat) (tr : List Ev) :
    destroyedIds (Ev.execT u :: tr) = destroyedIds tr := rfl

lemma destroyedIds_cons_destroy (u : Nat) (tr : List Ev) :
    destroyedIds (Ev.destroyT u :: tr) = u :: destroyedIds tr := rfl

lemma mem_destroyedIds (t : Nat) (tr : List Ev) :
    t ∈ destroyedIds tr ↔ Ev.destroyT t ∈ tr := by
  induction tr with
  | nil => simp [destroyedIds]
  | cons e tr ih =>
    cases e with
    | execT u => simp [destroyedIds_cons_exec, ih]
    | destroyT u => simp [destroyedIds_cons_destroy, ih]

/-- C2: for every run in which distinct tasks are accepted and the queue
eventually empties (for example because the run ends in shutdown), each
accepted task is destroyed exactly once — after being executed once, or
without execution when it is discarded at shutdown — and no event mentions
it after its destruction. -/
theorem c2_task_destroyed_exactly_once (acts : List Act) (t : Nat)
    (hnd : (acceptedRun initSys acts).Nodup)
    (hfin : pendingOf (sysRun initSys acts).inst = [])
    (ht : t ∈ acceptedRun initSys acts) :
    (sysRun initSys acts).trace.filter (evMentions t)
        = [Ev.execT t, Ev.destroyT t]
      ∨ (sysRun initSys acts).trace.filter (evMentions t) = [Ev.destroyT t] := by
  have hcons := destroyed_pending_conserved acts initSys
  rw [hfin] at hcons
  have e1 : destroyedIds initSys.trace = [] := rfl
  have e2 : pendingOf initSys.inst = [] := rfl
  rw [e1, e2] at hcons
  simp only [List.append_nil, List.nil_append] at hcons
  have hds : Ev.destroyT t ∈ (sysRun initSys acts).trace :=
    (mem_destroyedIds t _).mp (by rw [hcons]; exact ht)
  have hlc := task_lifecycle acts initSys t (by rfl)
    (by
      rw [e2]
      simpa using List.nodup_iff_count_le_one.mp hnd t)
  rcases hlc with h0 | h1 | h2
  · exfalso
    have hmem : Ev.destroyT t ∈ (sysRun initSys acts).trace.filter (evMentions t) :=
      List.mem_filter.mpr ⟨hds, by simp [evMentions]⟩
    rw [h0] at hmem
    simp at hmem
  · exact Or.inl h1
  · exact Or.inr h2

/-- Concrete action sequence for the C2 witness: create, submit tasks 1 and
2, run the worker once (task 1 executes), then shutdown (task 2 is
discarded). -/
def c2acts : List Act :=
  [Act.create, Act.submit (some 1) ExpectedRuntime.kShortRunningTask,
   Act.submit (some 2) ExpectedRuntime.kShortRunningTask, Act.runOne,
   Act.shutdown]

theorem c2_task_destroyed_exactly_once_witness :
    (acceptedRun initSys c2acts).Nodup
      ∧ pendingOf (sysRun initSys c2acts).inst = []
      ∧ 2 ∈ acceptedRun initSys c2acts
      ∧ ((sysRun initSys c2acts).trace.filter (evMentions 2)
            = [Ev.execT 2, Ev.destroyT 2]
          ∨ (sysRun initSys c2acts).trace.filter (evMentions 2)
            = [Ev.destroyT 2]) :=
  ⟨by decide, by decide, by decide,
    c2_task_destroyed_exactly_once c2acts 2 (by decide) (by decide) (by decide)⟩

/-- C3: shutdown is idempotent and drains without running: with no instance
it is a no-op; otherwise it sets running to false, empties the queue by the
time the call returns (the model of blocking until the worker has exited),
destroys every queued task without executing any, leaves no instance alive,
is a no-op when called again, and a subsequent create constructs a fresh
instance. -/
theorem c3_shutdown_idempotent_draining (s : Option Sched) (p : Sched) :
    shutdownP none = (none, [])
    ∧ (shutdownP (some p)).1 = none
    ∧ (stop p).1.running = false
    ∧ (stop p).1.pending = []
    ∧ (shutdownP (some p)).2 = p.pending.map Ev.destroyT
    ∧ (∀ t, Ev.execT t ∉ (shutdownP (some p)).2)
    ∧ shutdownP (shutdownP s).1 = (none, [])
    ∧ createP (shutdownP s).1 = some freshSched := by
  refine ⟨rfl, rfl, rfl, rfl, rfl, ?_, ?_, ?_⟩
  · intro t hmem
    simp [shutdownP, stop] at hmem
  · cases s <;> rfl
  · cases s <;> rfl

lemma createP_iterate_some (m : Nat) (p : Sched) :
    createP^[m] (some p) = some p := by
  induction m with
  | zero => rfl
  | succ m ih => rw [Function.iterate_succ_apply, createP, ih]

/-- C4: create is idempotent and constructs at most one instance: from an
empty singleton slot it constructs exactly one instance with running true
and an empty queue; with a live instance it has no effect; any positive
number k of (mutex-serialised) calls yields exactly the one fresh
instance. -/
theorem c4_create_idempotent (p : Sched) (s : Option Sched) (k : Nat)
    (hk : 0 < k) :
    createP none = some freshSched
    ∧ freshSched.running = true
    ∧ freshSched.pending = []
    ∧ createP (some p) = some p
    ∧ createP (createP s) = createP s
    ∧ createP^[k] none = some freshSched := by
  refine ⟨rfl, rfl, rfl, rfl, ?_, ?_⟩
  · cases s <;> rfl
  · obtain ⟨m, rfl⟩ : ∃ m, k = m + 1 :=
      ⟨k - 1, (Nat.succ_pred_eq_of_pos hk).symm⟩
    rw [Function.iterate_succ_apply]
    exact createP_iterate_some m freshSched

theorem c4_create_idempotent_witness :
    0 < 3
    ∧ (createP none = some freshSched
        ∧ freshSched.running = true
        ∧ freshSched.pending = []
        ∧ createP (some freshSched) = some freshSched
        ∧ createP (createP none) = createP none
        ∧ createP^[3] none = some freshSched) :=
  ⟨by decide, c4_create_idempotent freshSched none 3 (by decide)⟩

/-- C7: precondition violations are observably rejected and never corrupt
the queue — a null task is rejected, a submission when no instance is alive
(before create or after shutdown) is rejected, a rejected submission leaves
the system state unchanged, an accepted submission appends exactly its task
to the tail of the queue — while lifecycle misuse (create with a live
instance, shutdown with none) is a benign no-op. -/
theorem c7_invalid_use_rejected (st : SysState) (tr : List Ev)
    (inst : Option Sched) (p : Sched) (t : Nat) (rt : ExpectedRuntime) :
    submitBackground inst none rt = Except.error SubmitError.nullTask
    ∧ submitBackground none (some t) rt = Except.error SubmitError.noInstance
    ∧ sysStep st (Act.submit none rt) = st
    ∧ sysStep { inst := none, trace := tr } (Act.submit (some t) rt)
        = { inst := none, trace := tr }
    ∧ submitBackground (some p) (some t) rt
        = Except.ok (some (callOnBackgroundThread p t rt))
    ∧ (callOnBackgroundThread p t rt).pending = p.pending ++ [t]
    ∧ createP (some p) = some p
    ∧ shutdownP none = (none, []) :=
  ⟨rfl, rfl, rfl, rfl, rfl, rfl, rfl, rfl⟩

/-- C8: the expected-runtime hint is advisory only — two submissions that
differ only in the hint produce identical scheduler states, hence the hint
influences neither the queue contents nor the execution order of any
task. -/
theorem c8_hint_has_no_effect (p : Sched) (t : Nat) (st : SysState)
    (task : Option Nat) (h1 h2 : ExpectedRuntime) :
    callOnBackgroundThread p t h1 = callOnBackgroundThread p t h2
    ∧ sysStep st (Act.submit task h1) = sysStep st (Act.submit task h2) := by
  refine ⟨rfl, ?_⟩
  cases task with
  | none => rfl
  | some u =>
    cases hs : st.inst with
    | none => simp [sysStep, submitBackground, hs]
    | some q => simp [sysStep, submitBackground, callOnBackgroundThread, hs]

/-- Modelled from the spec: a task submitted for one foreground context —
its submission index (its position in the submission order for that
context) and its eligibility time on the monotonic clock (submission time
for `CallOnForegroundThread`; submission time plus delay for
`CallDelayedOnForegroundThread`). -/
structure FgTask where
  idx : Nat
  elig : Nat
deriving DecidableEq, Repr

/-- Modelled from the spec: a newly submitted task is placed behind every
already-scheduled task whose eligibility time is not later (delay-aware and
stable for ties). -/
def fgInsert (x : FgTask) : List FgTask → List FgTask
  | [] => [x]
  | y :: ys => if y.elig ≤ x.elig then y :: fgInsert x ys else x :: y :: ys

/-- Modelled from the spec: the order in which one foreground context
observes its tasks — each submission, taken in submission order, is inserted
at its delay-aware position. -/
def dispatchOrder (subs : List FgTask) : List FgTask :=
  subs.foldl (fun acc x => fgInsert x acc) []

/-- Task `a` is served before task `b`: strictly earlier eligibility time,
or equal eligibility times and earlier submission. -/
def fgBefore (a b : FgTask) : Prop :=
  a.elig < b.elig ∨ (a.elig = b.elig ∧ a.idx < b.idx)

instance : ∀ a b : FgTask, Decidable (fgBefore a b) := fun a b => by
  unfold fgBefore
  infer_instance

lemma mem_fgInsert (z x : FgTask) (l : List FgTask) :
    z ∈ fgInsert x l ↔ z = x ∨ z ∈ l := by
  induction l with
  | nil => simp [fgInsert]
  | cons y ys ih =>
    by_cases h : y.elig ≤ x.elig
    · simp [fgInsert, h, ih]
      tauto
    · simp [fgInsert, h]

lemma fgInsert_perm (x : FgTask) (l : List FgTask) :
    (fgInsert x l).Perm (x :: l) := by
  induction l with
  | nil => rfl
  | cons y ys ih =>
    by_cases h : y.elig ≤ x.elig
    · simp only [fgInsert, h, if_true]
      exact (ih.cons y).trans (List.Perm.swap x y ys)
    · simp [fgInsert, h]

lemma fgInsert_pairwise (x : FgTask) (l : List FgTask)
    (hidx : ∀ y ∈ l, y.idx < x.idx) (hp : l.Pairwise fgBefore) :
    (fgInsert x l).Pairwise fgBefore := by
  induction l with
  | nil => simp [fgInsert, fgBefore]
  | cons y ys ih =>
    obtain ⟨hy, hys⟩ := List.pairwise_cons.mp hp
    by_cases h : y.elig ≤ x.elig
    · simp only [fgInsert, h, if_true]
      refine List.pairwise_cons.mpr ⟨?_, ih (fun z hz => hidx z (List.mem_cons_of_mem y hz)) hys⟩
      intro z hz
      rcases (mem_fgInsert z x ys).mp hz with rfl | hz'
      · rcases lt_or_eq_of_le h with hlt | heq
        · exact Or.inl hlt
        · exact Or.inr ⟨heq, hidx y (List.mem_cons_self y ys)⟩
      · exact hy z hz'
    · push_neg at h
      simp only [fgInsert, if_neg (not_le.mpr h)]
      refine List.pairwise_cons.mpr ⟨?_, hp⟩
      intro z hz
      rcases List.mem_cons.mp hz with rfl | hz'
      · exact Or.inl h
      · rcases hy z hz' with hlt | ⟨heq, _⟩
        · exact Or.inl (h.trans hlt)
        · exact Or.inl (heq ▸ h)

lemma dispatch_fold_perm (subs : List FgTask) :
    ∀ acc : List FgTask,
      (subs.foldl (fun acc x => fgInsert x acc) acc).Perm (acc ++ subs) := by
  induction subs with
  | nil => intro acc; simp
  | cons x subs ih =>
    intro acc
    have h1 := ih (fgInsert x acc)
    have h2 : (fgInsert x acc ++ subs).Perm (acc ++ x :: subs) :=
      ((fgInsert_perm x acc).append_right subs).trans List.perm_middle.symm
    rw [List.foldl_cons]
    exact h1.trans h2

lemma dispatch_fold_pairwise (subs : List FgTask) :
    ∀ acc : List FgTask, acc.Pairwise fgBefore →
      (∀ y ∈ acc, ∀ x ∈ subs, y.idx < x.idx) →
      subs.Pairwise (fun a b => a.idx < b.idx) →
      (subs.foldl (fun acc x => fgInsert x acc) acc).Pairwise fgBefore := by
  induction subs with
  | nil => intro acc hacc _ _; simpa using hacc
  | cons x subs ih =>
    intro acc hacc hcross hsubs
    obtain ⟨hx, hsubs'⟩ := List.pairwise_cons.mp hsubs
    rw [List.foldl_cons]
    refine ih (fgInsert x acc) ?_ ?_ hsubs'
    · exact fgInsert_pairwise x acc
        (fun y hy => hcross y hy x (List.mem_cons_self x subs)) hacc
    · intro y hy z hz
      rcases (mem_fgInsert y x acc).mp hy with rfl | hy'
      · exact hx z hz
      · exact hcross y hy' z (List.mem_cons_of_mem x hz)

/-- C5: for one foreground context whose submissions carry strictly
increasing submission indices, the dispatch order contains exactly the
submitted tasks, and in it a task is served before another exactly when its
eligibility time is earlier, or the times tie and it was submitted first —
so submission order is preserved on ties and a later-eligible task never
runs before an earlier-eligible one. -/
theorem c5_foreground_per_context_order (subs : List FgTask)
    (hidx : subs.Pairwise fun a b => a.idx < b.idx) :
    (dispatchOrder subs).Perm subs
    ∧ (dispatchOrder subs).Pairwise fgBefore := by
  constructor
  · simpa using dispatch_fold_perm subs []
  · exact dispatch_fold_pairwise subs [] (by simp) (by simp) hidx

/-- Concrete submissions for the C5 witness, the spec's example: task A
submitted first with no delay, task B submitted second with a delay, task C
submitted third with no delay; all three at monotonic time 10, B delayed by
5. -/
def c5subs : List FgTask :=
  [{ idx := 0, elig := 10 }, { idx := 1, elig := 15 }, { idx := 2, elig := 10 }]

theorem c5_foreground_per_context_order_witness :
    c5subs.Pairwise (fun a b => a.idx < b.idx)
    ∧ ((dispatchOrder c5subs).Perm c5subs
        ∧ (dispatchOrder c5subs).Pairwise fgBefore) :=
  ⟨by decide, c5_foreground_per_context_order c5subs (by decide)⟩

/-- Modelled from the spec: `Platform::MonotonicallyIncreasingTime` reads
the operating system's monotonic clock — a raw nanosecond reading that never
decreases within a process lifetime and is immune to wall-clock adjustments
— and returns it in fractional milliseconds.  The raw reading is the model's
input; the unit conversion is the function's contribution. -/
def monotonicallyIncreasingTime (raw : Nat) : ℚ :=
  (raw : ℚ) / 1000000

/-- C6: two readings of the monotonic clock taken at raw instants r1 ≤ r2
(the OS guarantee for any two calls ordered in time) satisfy t1 ≤ t2, and
the returned value is the raw nanosecond reading scaled to fractional
milliseconds; wall-clock state is not an input of the function at all. -/
theorem c6_monotonic_time (r1 r2 : Nat) (h : r1 ≤ r2) :
    monotonicallyIncreasingTime r1 ≤ monotonicallyIncreasingTime r2
    ∧ monotonicallyIncreasingTime r1 * 1000000 = (r1 : ℚ) := by
  constructor
  · unfold monotonicallyIncreasingTime
    have h' : (r1 : ℚ) ≤ (r2 : ℚ) := by exact_mod_cast h
    linarith
  · unfold monotonicallyIncreasingTime
    norm_num

theorem c6_monotonic_time_witness :
    1 ≤ 2
    ∧ (monotonicallyIncreasingTime 1 ≤ monotonicallyIncreasingTime 2
        ∧ monotonicallyIncreasingTime 1 * 1000000 = ((1 : Nat) : ℚ)) :=
  ⟨by decide, c6_monotonic_time 1 2 (by decide)⟩

/-- A piece of mutable state shared between producer threads and the
worker: the Pending Queue (`Platform::_tasks`) or the running flag
(`Platform::_running`).  These are the only shared mutable variables of the
model. -/
inductive SharedVar
  | queue
  | flag
deriving DecidableEq, Repr

/-- A micro-step of an operation: take or release the single mutex
(`Platform::_mutex`), read or write a shared variable, wait on or signal
the condition variable (`Platform::_condition`), or run a task. -/
inductive MStep
  | lockM
  | unlockM
  | readVar (v : SharedVar)
  | writeVar (v : SharedVar)
  | waitCond
  | signalCond
  | runTask
deriving DecidableEq, Repr

/-- Modelled from the spec: the micro-steps of `CallOnBackgroundThread` —
take the lock, append the task to the queue, signal the condition, release
the lock. -/
def submitSteps : List MStep :=
  [.lockM, .writeVar .queue, .signalCond, .unlockM]

/-- Modelled from the spec: the micro-steps of one worker-loop iteration —
under the lock check the running flag and the queue, wait on the condition
when there is nothing to do, re-check the wait predicate under the same
lock after waking (guarding against spurious wakeups), pop the head task
under the lock, release the lock, and only then run the task. -/
def workerIterSteps : List MStep :=
  [.lockM, .readVar .flag, .readVar .queue, .waitCond, .readVar .flag,
   .readVar .queue, .writeVar .queue, .unlockM, .runTask]

/-- Modelled from the spec: the micro-steps of `stop` up to the join — take
the lock, clear the running flag, wake the worker, release the lock; the
join that follows touches no shared variable. -/
def stopSteps : List MStep :=
  [.lockM, .writeVar .flag, .signalCond, .unlockM]

/-- Modelled from the spec: the micro-steps of the worker's drain once the
stop signal is observed — under the lock re-read the flag, read the queue
and empty it (destroying the tasks), then release the lock and exit. -/
def drainSteps : List MStep :=
  [.lockM, .readVar .flag, .readVar .queue, .writeVar .queue, .unlockM]

/-- Does every read and write of a shared variable — and every wait on the
condition variable — happen while the single mutex is held?  The Boolean
argument is whether the mutex is held on entry. -/
def accessesUnderLock : Bool → List MStep → Bool
  | _, [] => true
  | _, MStep.lockM :: rest => accessesUnderLock true rest
  | _, MStep.unlockM :: rest => accessesUnderLock false rest
  | l, MStep.readVar _ :: rest => l && accessesUnderLock l rest
  | l, MStep.writeVar _ :: rest => l && accessesUnderLock l rest
  | l, MStep.waitCond :: rest => l && accessesUnderLock l rest
  | l, MStep.signalCond :: rest => accessesUnderLock l rest
  | l, MStep.runTask :: rest => accessesUnderLock l rest

/-- Is every wait on the condition variable immediately followed by a
re-check of the wait predicate (the running flag and the queue), so that the
condition variable only avoids busy-waiting and is never the sole
synchronization mechanism? -/
def recheckAfterWait : List MStep → Bool
  | [] => true
  | MStep.waitCond :: MStep.readVar SharedVar.flag
      :: MStep.readVar SharedVar.queue :: rest => recheckAfterWait rest
  | MStep.waitCond :: _ => false
  | _ :: rest => recheckAfterWait rest

/-- C9: in every operation touching shared state — submission, a worker
iteration, stop, and the shutdown drain — every read and write of the
Pending Queue and of the running flag happens while the single mutex is
held, and every wait on the condition variable happens under that mutex and
is followed by a re-check of the wait predicate, so the condition variable
only prevents busy-waiting and is never the sole synchronization
mechanism. -/
theorem c9_mutex_discipline :
    (accessesUnderLock false submitSteps = true
      ∧ accessesUnderLock false workerIterSteps = true
      ∧ accessesUnderLock false stopSteps = true
      ∧ accessesUnderLock false drainSteps = true)
    ∧ (recheckAfterWait submitSteps = true
      ∧ recheckAfterWait workerIterSteps = true
      ∧ recheckAfterWait stopSteps = true
      ∧ recheckAfterWait drainSteps = true) := by
  decide

/-- A data member of the Platform instance destroyed by the destructor:
the task queue, the mutex, the condition variable, or the worker thread
object. -/
inductive Member
  | queueM
  | mutexM
  | conditionM
  | threadM
deriving DecidableEq, Repr

/-- A step of `~Platform()`: one of the steps of the blocking `stop` call
(set running to false, wake the worker, join the worker thread — after the
join the worker thread has exited), or the implicit destruction of a data
member. -/
inductive DtorStep
  | setRunningFalse
  | notifyWorker
  | joinWorker
  | destroyMember (m : Member)
deriving DecidableEq, Repr

/-- Modelled from the spec: `~Platform()` first runs the blocking `stop`
and only afterwards does C++ destroy the data members, in reverse
declaration order (worker thread, condition variable, mutex, queue). -/
def destructorSteps : List DtorStep :=
  [.setRunningFalse, .notifyWorker, .joinWorker,
   .destroyMember .threadM, .destroyMember .conditionM,
   .destroyMember .mutexM, .destroyMember .queueM]

/-- C10: in the destructor the join of the worker thread occurs, and it
occurs strictly before the destruction of every data member — the queue,
the mutex, the condition variable and the thread object — so the worker
thread has exited before any member it could access is destroyed. -/
theorem c10_join_precedes_member_destruction :
    DtorStep.joinWorker ∈ destructorSteps
    ∧ ∀ m : Member,
        destructorSteps.indexOf DtorStep.joinWorker
          < destructorSteps.indexOf (DtorStep.destroyMember m)
    ∧ DtorStep.destroyMember m ∈ destructorSteps := by
  refine ⟨by decide, ?_⟩
  intro m
  cases m <;> exact ⟨by decide, by decide⟩

end PhpJs
